import Mathlib

/-!
Verification of the runtime value / extension / search core of the
`wirefilter` filter-expression engine, shallowly embedded from the Rust
source (`src/engine/src/lhs_types/bytes.rs`, `src/engine/src/searcher.rs`,
`src/engine/src/list_matcher.rs`).

Bytes are modelled as `List Nat` (each element a byte value); the
copy-on-write `Bytes` enum is a two-constructor inductive mirroring
`Bytes::Borrowed` / `Bytes::Owned`.
-/

namespace Wirefilter

/-- Embeds `enum Bytes` from `lhs_types/bytes.rs`: a byte string that is
either a borrowed view or an owned buffer. -/
inductive Bytes where
  | Borrowed (b : List Nat)
  | Owned (b : List Nat)
  deriving DecidableEq, Repr

namespace Bytes

/-- Embeds `impl Deref for Bytes` (`bytes.rs` lines 64-74): both arms
expose the underlying byte content. -/
def deref : Bytes → List Nat
  | .Borrowed b => b
  | .Owned b => b

/-- True exactly on the `Owned` constructor. -/
def isOwned : Bytes → Bool
  | .Borrowed _ => false
  | .Owned _ => true

/-- Embeds `Bytes::to_owned` (`bytes.rs` lines 19-24): clones into a fully
owned byte string. -/
def to_owned : Bytes → Bytes
  | .Borrowed b => .Owned b
  | .Owned b => .Owned b

/-- Embeds `Bytes::into_owned` (`bytes.rs` lines 28-33): consumes self and
returns the owned buffer. -/
def into_owned : Bytes → List Nat
  | .Borrowed b => b
  | .Owned b => b

/-- Embeds `Bytes::to_mut` (`bytes.rs` lines 38-46): promotes a borrowed
value to owned by copying; an owned value is left untouched. The result is
the state of `self` after the call (whose buffer is what the returned
mutable slice views). -/
def to_mut : Bytes → Bytes
  | .Borrowed b => .Owned b
  | .Owned b => .Owned b

/-- Embeds `Bytes::truncate` (`bytes.rs` lines 50-61). On the borrowed arm
the code re-slices with `&slice[..len]`, which panics when
`len > slice.len()` (modelled as `none`); on the owned arm it converts to a
`Vec`, calls `Vec::truncate` (which clamps, keeping at most `len`
elements), and boxes the result back. -/
def truncate : Bytes → Nat → Option Bytes
  | .Borrowed slice, len =>
      if len ≤ slice.length then some (.Borrowed (slice.take len)) else none
  | .Owned data, len => some (.Owned (data.take len))

/-- Embeds `impl PartialEq for Bytes` (`bytes.rs` lines 180-185): compares
the dereferenced contents, `**self == **other`. -/
def beq (a b : Bytes) : Bool := a.deref == b.deref

/-- Embeds `impl Hash for Bytes` (`bytes.rs` lines 245-250): the hasher is
fed `self.deref()` only. A Rust `&[u8]` hash writes the length prefix and
then the bytes into the hasher state; we model the hasher state as the list
of machine words written so far. -/
def hashFeed (state : List Nat) (b : Bytes) : List Nat :=
  state ++ [b.deref.length] ++ b.deref

end Bytes

/-- A UTF-8 continuation byte, `0x80 ..= 0xBF`. -/
def contB (c : Nat) : Bool := decide (0x80 ≤ c ∧ c ≤ 0xBF)

/-- Embeds the success condition of `std::str::from_utf8` (RFC 3629 UTF-8
validation), which `impl Serialize for Bytes` uses to pick the text branch:
`0x00-0x7F` stand alone; `0xC2-0xDF` take one continuation byte;
three-byte leads `0xE0`/`0xE1-0xEC`/`0xED`/`0xEE-0xEF` constrain their
first continuation to exclude overlong forms and surrogates; four-byte
leads `0xF0`/`0xF1-0xF3`/`0xF4` constrain theirs to the range
`U+10000 ..= U+10FFFF`. -/
def validUtf8 : List Nat → Bool
  | [] => true
  | b :: rest =>
    if b ≤ 0x7F then validUtf8 rest
    else if 0xC2 ≤ b ∧ b ≤ 0xDF then
      match rest with
      | c1 :: rest2 => contB c1 && validUtf8 rest2
      | [] => false
    else if b = 0xE0 then
      match rest with
      | c1 :: c2 :: rest2 => decide (0xA0 ≤ c1 ∧ c1 ≤ 0xBF) && contB c2 && validUtf8 rest2
      | _ => false
    else if 0xE1 ≤ b ∧ b ≤ 0xEC then
      match rest with
      | c1 :: c2 :: rest2 => contB c1 && contB c2 && validUtf8 rest2
      | _ => false
    else if b = 0xED then
      match rest with
      | c1 :: c2 :: rest2 => decide (0x80 ≤ c1 ∧ c1 ≤ 0x9F) && contB c2 && validUtf8 rest2
      | _ => false
    else if 0xEE ≤ b ∧ b ≤ 0xEF then
      match rest with
      | c1 :: c2 :: rest2 => contB c1 && contB c2 && validUtf8 rest2
      | _ => false
    else if b = 0xF0 then
      match rest with
      | c1 :: c2 :: c3 :: rest2 =>
        decide (0x90 ≤ c1 ∧ c1 ≤ 0xBF) && contB c2 && contB c3 && validUtf8 rest2
      | _ => false
    else if 0xF1 ≤ b ∧ b ≤ 0xF3 then
      match rest with
      | c1 :: c2 :: c3 :: rest2 => contB c1 && contB c2 && contB c3 && validUtf8 rest2
      | _ => false
    else if b = 0xF4 then
      match rest with
      | c1 :: c2 :: c3 :: rest2 =>
        decide (0x80 ≤ c1 ∧ c1 ≤ 0x8F) && contB c2 && contB c3 && validUtf8 rest2
      | _ => false
    else false

/-- The serde data-model shapes that `BytesVisitor` (`bytes.rs` lines
265-327) accepts: a text string (carried here as its UTF-8 byte content),
a raw byte sequence, and a sequence of integers. -/
inductive Wire where
  | str (s : List Nat)
  | bytes (b : List Nat)
  | seq (l : List Int)
  deriving DecidableEq, Repr

namespace Bytes

/-- Embeds `impl Serialize for Bytes` (`bytes.rs` lines 252-263): when the
content is valid UTF-8, `serialize_str`; otherwise `serialize_bytes`. -/
def serialize (x : Bytes) : Wire :=
  if validUtf8 x.deref then .str x.deref else .bytes x.deref

/-- Embeds serde deserialization of one `u8` element inside `visit_seq`:
succeeds exactly when the integer fits in a byte. -/
def byteOfInt (a : Int) : Option Nat :=
  if 0 ≤ a ∧ a < 256 then some a.toNat else none

/-- Embeds the `visit_seq` loop (`bytes.rs` lines 316-326): deserialize
each element as a `u8` and push it, propagating the first failure. -/
def bytesFromInts : List Int → Option (List Nat)
  | [] => some []
  | a :: t => do
    let b ← byteOfInt a
    let bs ← bytesFromInts t
    pure (b :: bs)

/-- Embeds `BytesVisitor` (`bytes.rs` lines 265-327) driven by a
self-describing wire value: a string hits `visit_string`/`visit_str`
(owned copy of the UTF-8 bytes), a byte sequence hits
`visit_byte_buf`/`visit_bytes` (owned), and an integer sequence hits
`visit_seq`, which pushes each element deserialized as a `u8` (failing if
any element is not a valid byte) and yields an owned buffer. -/
def deserialize : Wire → Option Bytes
  | .str s => some (.Owned s)
  | .bytes v => some (.Owned v)
  | .seq l => (bytesFromInts l).map .Owned

end Bytes

/-- Modelled from the spec: the tagged runtime value union `LhsValue`
(defined in `types.rs`, which is not among the provided sources) — "a
tagged runtime value type (of which ByteString is one variant)". Only the
`Bytes` variant is consumed by the components specified here; the other
variants (integers, booleans, IPs, maps, arrays) are represented by two
stand-in constructors, enough to state that searchers treat them as
unreachable. -/
inductive LhsValue where
  | Bytes (b : Bytes)
  | Int (i : Int)
  | Bool (b : Bool)

/-- Embeds `struct EmptySearcher` (`searcher.rs` line 5): the
empty-pattern strategy, carrying no state. -/
structure EmptySearcher where

/-- Embeds `struct MemmemSearcher(Finder)` (`searcher.rs` lines 14-21):
the generic substring strategy, holding the needle it was built from. -/
structure MemmemSearcher where
  needle : List Nat

/-- Embeds `sliceslice::MemchrSearcher`, the vectorized short-needle
strategy: it holds a single byte and searches for it with `memchr`. -/
structure MemchrSearcher where
  byte : Nat

/-- True iff the first list matches the start of the second, element by
element. -/
def leadsWith : List Nat → List Nat → Bool
  | [], _ => true
  | _ :: _, [] => false
  | a :: p, b :: h => a == b && leadsWith p h

/-- Embeds `memchr::memmem::Finder::find` per its documented contract: the
index of the first occurrence of the needle in the haystack, `some 0` for
the empty needle. -/
def memmemFind (needle : List Nat) : List Nat → Option Nat
  | [] => if leadsWith needle [] then some 0 else none
  | x :: t =>
    if leadsWith needle (x :: t) then some 0
    else (memmemFind needle t).map (· + 1)

/-- Embeds `sliceslice::MemchrSearcher::search_in`: true iff `memchr`
finds the stored byte in the haystack. -/
def MemchrSearcher.search_in (s : MemchrSearcher) (h : List Nat) : Bool :=
  h.contains s.byte

/-- Embeds `impl Compare for EmptySearcher` (`searcher.rs` lines 7-12):
ignores both the value and the execution context and returns true. The
context type `U` is kept abstract, as in the Rust generic. -/
def EmptySearcher.compare {U : Type} (_ : EmptySearcher) (_ : LhsValue) (_ : U) : Bool :=
  true

/-- Embeds `impl Compare for MemmemSearcher` (`searcher.rs` lines 23-33):
on a `Bytes` value, runs the finder and tests `is_some()`; any other
variant is `unreachable!()`, modelled as `none`. -/
def MemmemSearcher.compare {U : Type} (s : MemmemSearcher) (v : LhsValue) (_ : U) :
    Option Bool :=
  match v with
  | .Bytes b => some (memmemFind s.needle b.deref).isSome
  | _ => none

/-- Embeds `impl Compare for MemchrSearcher` (`searcher.rs` lines 35-43):
on a `Bytes` value, `search_in`; any other variant is `unreachable!()`,
modelled as `none`. -/
def MemchrSearcher.compare {U : Type} (s : MemchrSearcher) (v : LhsValue) (_ : U) :
    Option Bool :=
  match v with
  | .Bytes b => some (s.search_in b.deref)
  | _ => none

/-- Spec-side characterization, written from the spec's words: the needle
occurs as a contiguous subsequence of the haystack bytes; the empty needle
occurs in every haystack. -/
def OccursIn (p h : List Nat) : Prop :=
  ∃ pre suf, h = pre ++ p ++ suf

/-- Embeds `struct AlwaysListMatcher {}` (`list_matcher.rs` line 86): the
matcher for `AlwaysList`, holding no state. -/
structure AlwaysListMatcher where
deriving DecidableEq, BEq, Repr

/-- Embeds `struct NeverListMatcher {}` (`list_matcher.rs` line 117): the
matcher for `NeverList`, holding no state. -/
structure NeverListMatcher where
deriving DecidableEq, BEq, Repr

/-- Embeds `impl ListMatcher for AlwaysListMatcher::match_value`
(`list_matcher.rs` lines 104-106): returns false for every list name and
value. -/
def AlwaysListMatcher.match_value (_ : AlwaysListMatcher) (_ : String) (_ : LhsValue) :
    Bool :=
  false

/-- Embeds `AlwaysListMatcher::clear` (`list_matcher.rs` line 108): the
body is empty, so the state is unchanged. -/
def AlwaysListMatcher.clear (m : AlwaysListMatcher) : AlwaysListMatcher := m

/-- Embeds `impl ListMatcher for NeverListMatcher::match_value`
(`list_matcher.rs` lines 135-137): returns false for every list name and
value. -/
def NeverListMatcher.match_value (_ : NeverListMatcher) (_ : String) (_ : LhsValue) :
    Bool :=
  false

/-- Embeds `NeverListMatcher::clear` (`list_matcher.rs` line 139): the
body is empty, so the state is unchanged. -/
def NeverListMatcher.clear (m : NeverListMatcher) : NeverListMatcher := m

/-- Embeds `Box<dyn ListMatcher>` closed over the concrete matcher kinds
defined in `list_matcher.rs`: `AlwaysListMatcher` and
`NeverListMatcher`. -/
inductive DynMatcher where
  | always (m : AlwaysListMatcher)
  | never (m : NeverListMatcher)
  deriving DecidableEq, Repr

/-- Embeds the blanket `impl<T: PartialEq + Any> DynPartialEq for T`
(`list_matcher.rs` lines 49-58) composed with
`impl PartialEq for dyn ListMatcher` (lines 73-78): downcast the right
operand to the left operand's concrete type; on success compare with that
type's own `PartialEq`, on failure return false. -/
def DynMatcher.dyn_eq : DynMatcher → DynMatcher → Bool
  | .always a, .always b => a == b
  | .never a, .never b => a == b
  | _, _ => false

/-- Spec-side characterization, written from the spec's words: the two
matchers are the same concrete kind and their internal states compare
equal under that kind's own equality. -/
def SameKindSameState : DynMatcher → DynMatcher → Prop
  | .always a, .always b => a = b
  | .never a, .never b => a = b
  | _, _ => False

/-- Dynamic dispatch of `match_value` through the trait object. -/
def DynMatcher.match_value : DynMatcher → String → LhsValue → Bool
  | .always m, name, v => m.match_value name v
  | .never m, name, v => m.match_value name v

/-- Dynamic dispatch of `clear` through the trait object. -/
def DynMatcher.clear : DynMatcher → DynMatcher
  | .always m => .always m.clear
  | .never m => .never m.clear

/-- `n` successive `clear()` calls. -/
def DynMatcher.clearN : Nat → DynMatcher → DynMatcher
  | 0, m => m
  | n + 1, m => DynMatcher.clearN n m.clear

/-- Embeds `AlwaysList::new_matcher` (`list_matcher.rs` lines 98-100):
boxes a fresh `AlwaysListMatcher {}`. -/
def AlwaysList.new_matcher : DynMatcher := .always {}

/-- Embeds `NeverList::new_matcher` (`list_matcher.rs` lines 129-131):
boxes a fresh `NeverListMatcher {}`. -/
def NeverList.new_matcher : DynMatcher := .never {}

/-- Embeds `MemmemSearcher::new` (`searcher.rs` lines 16-21): builds a
forward finder over the given needle. -/
def MemmemSearcher.new (needle : List Nat) : MemmemSearcher := ⟨needle⟩

theorem leadsWith_iff (p h : List Nat) :
    leadsWith p h = true ↔ ∃ suf, h = p ++ suf := by
  induction p generalizing h with
  | nil => simp [leadsWith]
  | cons a p ih =>
    cases h with
    | nil => simp [leadsWith]
    | cons b t =>
      simp only [leadsWith, Bool.and_eq_true, beq_iff_eq, ih, List.cons_append,
        List.cons.injEq]
      constructor
      · rintro ⟨rfl, suf, rfl⟩
        exact ⟨suf, rfl, rfl⟩
      · rintro ⟨suf, rfl, rfl⟩
        exact ⟨rfl, suf, rfl⟩

theorem occursIn_nil (p : List Nat) : OccursIn p [] ↔ p = [] := by
  constructor
  · rintro ⟨pre, suf, hps⟩
    rcases List.append_eq_nil.mp hps.symm with ⟨h1, h2⟩
    exact (List.append_eq_nil.mp h1).2
  · rintro rfl
    exact ⟨[], [], rfl⟩

theorem occursIn_cons (p : List Nat) (x : Nat) (t : List Nat) :
    OccursIn p (x :: t) ↔ (∃ suf, x :: t = p ++ suf) ∨ OccursIn p t := by
  constructor
  · rintro ⟨pre, suf, hps⟩
    cases pre with
    | nil => exact Or.inl ⟨suf, by simpa using hps⟩
    | cons y pre =>
      simp only [List.cons_append] at hps
      injection hps with h1 h2
      exact Or.inr ⟨pre, suf, h2⟩
  · rintro (⟨suf, hs⟩ | ⟨pre, suf, hs⟩)
    · exact ⟨[], suf, by simpa using hs⟩
    · exact ⟨x :: pre, suf, by rw [hs]; simp⟩

theorem memmemFind_isSome_iff (p h : List Nat) :
    (memmemFind p h).isSome = true ↔ OccursIn p h := by
  induction h with
  | nil =>
    rw [occursIn_nil]
    simp only [memmemFind]
    constructor
    · intro hs
      by_cases hl : leadsWith p [] = true
      · rcases (leadsWith_iff p []).mp hl with ⟨suf, hsuf⟩
        exact (List.append_eq_nil.mp hsuf.symm).1
      · simp [hl] at hs
    · rintro rfl
      simp [leadsWith]
  | cons x t ih =>
    rw [occursIn_cons]
    simp only [memmemFind]
    by_cases hl : leadsWith p (x :: t) = true
    · rw [if_pos hl]
      simp only [Option.isSome_some, true_iff]
      exact Or.inl ((leadsWith_iff _ _).mp hl)
    · rw [if_neg hl, Option.isSome_map', ih]
      constructor
      · exact Or.inr
      · rintro (⟨suf, hsuf⟩ | ho)
        · exact absurd ((leadsWith_iff _ _).mpr ⟨suf, hsuf⟩) hl
        · exact ho

theorem mem_iff_occursIn_single (b : Nat) (h : List Nat) :
    b ∈ h ↔ OccursIn [b] h := by
  rw [List.mem_iff_append]
  constructor
  · rintro ⟨s, t, rfl⟩
    exact ⟨s, t, by simp⟩
  · rintro ⟨s, t, hst⟩
    exact ⟨s, t, by simpa using hst⟩

theorem contains_iff_occursIn_single (b : Nat) (h : List Nat) :
    h.contains b = true ↔ OccursIn [b] h := by
  rw [← mem_iff_occursIn_single]
  simp [List.contains, List.elem_iff]

theorem bytesFromInts_of_valid (l : List Int) (hl : ∀ a ∈ l, 0 ≤ a ∧ a < 256) :
    Bytes.bytesFromInts l = some (l.map Int.toNat) := by
  induction l with
  | nil => rfl
  | cons a t ih =>
    have ha := hl a (List.mem_cons_self a t)
    have ht := ih fun x hx => hl x (List.mem_cons_of_mem _ hx)
    simp [Bytes.bytesFromInts, Bytes.byteOfInt, ha.1, ha.2, ht]

/-- C1: the generic substring strategy (`MemmemSearcher`) and the
vectorized short-needle strategy (`MemchrSearcher`) both return true from
`compare` exactly when the needle occurs as a contiguous subsequence of
the haystack bytes; the empty needle always matches; and on the needles
both strategies can represent (single bytes, the only needles a
`MemchrSearcher` holds) the two strategies agree on every haystack. -/
theorem searchers_agree_substring_semantics {U : Type} (p : List Nat) (b : Nat)
    (x : Bytes) (ctx : U) :
    ((MemmemSearcher.new p).compare (.Bytes x) ctx = some true ↔ OccursIn p x.deref)
    ∧ (MemchrSearcher.compare ⟨b⟩ (.Bytes x) ctx = some true ↔ OccursIn [b] x.deref)
    ∧ ((MemmemSearcher.new []).compare (.Bytes x) ctx = some true)
    ∧ ((MemmemSearcher.new [b]).compare (.Bytes x) ctx
        = MemchrSearcher.compare ⟨b⟩ (.Bytes x) ctx) := by
  refine ⟨?_, ?_, ?_, ?_⟩
  · simp [MemmemSearcher.compare, MemmemSearcher.new, memmemFind_isSome_iff]
  · simp only [MemchrSearcher.compare, MemchrSearcher.search_in, Option.some.injEq]
    exact contains_iff_occursIn_single b x.deref
  · simp only [MemmemSearcher.compare, MemmemSearcher.new, Option.some.injEq]
    rw [memmemFind_isSome_iff]
    exact ⟨[], x.deref, rfl⟩
  · simp only [MemmemSearcher.compare, MemmemSearcher.new, MemchrSearcher.compare,
      MemchrSearcher.search_in, Option.some.injEq]
    have h1 := memmemFind_isSome_iff [b] x.deref
    have h2 := contains_iff_occursIn_single b x.deref
    cases hA : (memmemFind [b] x.deref).isSome <;>
      cases hB : x.deref.contains b <;> simp_all

/-- C2: deserializing the serialized form of a byte string yields an equal
byte string, for every content including invalid UTF-8; serialization
emits the text wire shape exactly when the content is valid UTF-8 and the
opaque byte shape otherwise, and the byte content survives the round trip
in both branches. -/
theorem bytes_serde_roundtrip (x : Bytes) :
    (∃ y, Bytes.deserialize (Bytes.serialize x) = some y ∧ Bytes.beq y x = true)
    ∧ ((∃ s, Bytes.serialize x = Wire.str s) ↔ validUtf8 x.deref = true)
    ∧ ((∃ v, Bytes.serialize x = Wire.bytes v) ↔ validUtf8 x.deref = false) := by
  by_cases hv : validUtf8 x.deref = true
  · refine ⟨⟨.Owned x.deref, ?_, ?_⟩, ?_, ?_⟩
    · simp [Bytes.serialize, hv, Bytes.deserialize]
    · simp [Bytes.beq, Bytes.deref]
    · simp [Bytes.serialize, hv]
    · simp [Bytes.serialize, hv]
  · refine ⟨⟨.Owned x.deref, ?_, ?_⟩, ?_, ?_⟩
    · simp [Bytes.serialize, hv, Bytes.deserialize]
    · simp [Bytes.beq, Bytes.deref]
    · simp [Bytes.serialize, hv]
    · simp [Bytes.serialize, hv]

/-- C3: on the reference matcher kinds (`AlwaysListMatcher` and
`NeverListMatcher`), `match_value` returns false for every list name and
value, on a fresh matcher and after any number of `clear()` calls — in
particular the kind named to suggest unconditional membership also always
returns false. -/
theorem reference_matchers_never_match (m : DynMatcher) (n : Nat) (name : String)
    (v : LhsValue) :
    (DynMatcher.clearN n m).match_value name v = false
    ∧ AlwaysList.new_matcher.match_value name v = false
    ∧ NeverList.new_matcher.match_value name v = false := by
  refine ⟨?_, rfl, rfl⟩
  cases DynMatcher.clearN n m with
  | always a => rfl
  | never a => rfl

/-- C4: `Bytes` equality holds iff the byte contents are equal, regardless
of Borrowed/Owned construction, and the hasher is fed exactly the
dereferenced content, so two values with identical bytes feed any hasher
state identically whatever representation each uses. -/
theorem bytes_eq_hash_content_only (b1 b2 : Bytes) :
    (Bytes.beq b1 b2 = true ↔ b1.deref = b2.deref)
    ∧ (b1.deref = b2.deref →
        ∀ st : List Nat, Bytes.hashFeed st b1 = Bytes.hashFeed st b2)
    ∧ (∀ l : List Nat, Bytes.beq (.Borrowed l) (.Owned l) = true) := by
  refine ⟨?_, ?_, ?_⟩
  · simp [Bytes.beq]
  · intro hd st
    simp [Bytes.hashFeed, hd]
  · intro l
    simp [Bytes.beq, Bytes.deref]

theorem bytes_eq_hash_content_only_witness :
    Bytes.beq (.Borrowed [1, 2]) (.Owned [1, 2]) = true
    ∧ Bytes.hashFeed [] (.Borrowed [1, 2]) = Bytes.hashFeed [] (.Owned [1, 2]) :=
  ⟨(bytes_eq_hash_content_only (.Borrowed [1, 2]) (.Owned [1, 2])).1.mpr rfl,
    (bytes_eq_hash_content_only (.Borrowed [1, 2]) (.Owned [1, 2])).2.1 rfl []⟩

/-- C5: trait-object equality on list matchers returns true iff the two
operands are the same concrete kind and their internal states compare
equal under that kind's own equality; cross-kind comparisons return false
in both directions, and two fresh `AlwaysListMatcher`s are equal. -/
theorem dyn_matcher_eq_iff (m1 m2 : DynMatcher) :
    (DynMatcher.dyn_eq m1 m2 = true ↔ SameKindSameState m1 m2)
    ∧ DynMatcher.dyn_eq (.always {}) (.always {}) = true
    ∧ DynMatcher.dyn_eq (.always {}) (.never {}) = false
    ∧ DynMatcher.dyn_eq (.never {}) (.always {}) = false := by
  refine ⟨?_, rfl, rfl, rfl⟩
  cases m1 with
  | always a =>
    cases a
    cases m2 with
    | always b => cases b; exact ⟨fun _ => rfl, fun _ => rfl⟩
    | never b => cases b; simp [DynMatcher.dyn_eq, SameKindSameState]
  | never a =>
    cases a
    cases m2 with
    | always b => cases b; simp [DynMatcher.dyn_eq, SameKindSameState]
    | never b => cases b; exact ⟨fun _ => rfl, fun _ => rfl⟩

/-- C6: `to_mut` leaves the value Owned with its content unchanged; on an
already-Owned value it performs no promotion (it is the identity), so a
second consecutive call changes neither representation nor content. -/
theorem to_mut_owned_idempotent (x : Bytes) :
    (Bytes.to_mut x).isOwned = true
    ∧ (Bytes.to_mut x).deref = x.deref
    ∧ (∀ d : List Nat, Bytes.to_mut (.Owned d) = .Owned d)
    ∧ Bytes.to_mut (Bytes.to_mut x) = Bytes.to_mut x := by
  cases x <;> simp [Bytes.to_mut, Bytes.isOwned, Bytes.deref]

/-- C7: with `n` at most the current length, `truncate n` succeeds and the
value holds exactly the first `n` bytes of the original content; a
Borrowed value stays Borrowed (the view is narrowed) and an Owned value
stays Owned (the buffer is shrunk). -/
theorem truncate_keeps_first_bytes (s d : List Nat) (n : Nat)
    (hs : n ≤ s.length) (hd : n ≤ d.length) :
    Bytes.truncate (.Borrowed s) n = some (.Borrowed (s.take n))
    ∧ Bytes.truncate (.Owned d) n = some (.Owned (d.take n))
    ∧ (s.take n).length = n ∧ (d.take n).length = n
    ∧ (∀ i, i < n → (s.take n)[i]? = s[i]?)
    ∧ (∀ i, i < n → (d.take n)[i]? = d[i]?) := by
  refine ⟨?_, rfl, ?_, ?_, ?_, ?_⟩
  · simp [Bytes.truncate, hs]
  · simp [List.length_take, hs]
  · simp [List.length_take, hd]
  · intro i hi
    rw [List.getElem?_take, if_pos hi]
  · intro i hi
    rw [List.getElem?_take, if_pos hi]

theorem truncate_keeps_first_bytes_witness :
    Bytes.truncate (.Borrowed [1, 2, 3]) 2 = some (.Borrowed [1, 2])
    ∧ Bytes.truncate (.Owned [4, 5, 6]) 2 = some (.Owned [4, 5]) := by
  have h := truncate_keeps_first_bytes [1, 2, 3] [4, 5, 6] 2 (by decide) (by decide)
  exact ⟨h.1, h.2.1⟩

/-- C8: the empty-pattern strategy returns true from `compare` for every
input value and every execution context, unconditionally. -/
theorem empty_searcher_always_true {U : Type} (e : EmptySearcher) (v : LhsValue)
    (ctx : U) : e.compare v ctx = true := rfl

/-- C9: an integer-sequence wire shape whose elements all fit in a byte
deserializes successfully to the same owned value as the direct
byte-sequence shape carrying those bytes. -/
theorem seq_and_bytes_shapes_agree (l : List Int) (hl : ∀ a ∈ l, 0 ≤ a ∧ a < 256) :
    Bytes.deserialize (Wire.seq l) = some (.Owned (l.map Int.toNat))
    ∧ Bytes.deserialize (Wire.seq l) = Bytes.deserialize (Wire.bytes (l.map Int.toNat))
    ∧ (∃ y, Bytes.deserialize (Wire.seq l) = some y ∧ y.isOwned = true) := by
  have h := bytesFromInts_of_valid l hl
  refine ⟨?_, ?_, ⟨.Owned (l.map Int.toNat), ?_, rfl⟩⟩ <;>
    simp [Bytes.deserialize, h]

theorem seq_and_bytes_shapes_agree_witness :
    Bytes.deserialize (Wire.seq [(97 : Int), 98]) = some (.Owned [97, 98]) :=
  (seq_and_bytes_shapes_agree [97, 98] (by decide)).1

/-- C10: with `n` strictly greater than the current length, `truncate n`
panics on a Borrowed value (the re-slicing index is out of bounds, so the
operation is partial there) while on an Owned value `Vec::truncate` clamps
and the byte content is unchanged. -/
theorem truncate_over_length (s d : List Nat) (n : Nat)
    (hs : s.length < n) (hd : d.length < n) :
    Bytes.truncate (.Borrowed s) n = none
    ∧ Bytes.truncate (.Owned d) n = some (.Owned d) := by
  constructor
  · simp only [Bytes.truncate, ite_eq_right_iff]
    intro hle
    omega
  · simp [Bytes.truncate, List.take_of_length_le (le_of_lt hd)]

theorem truncate_over_length_witness :
    Bytes.truncate (.Borrowed [1, 2]) 5 = none
    ∧ Bytes.truncate (.Owned [3]) 5 = some (.Owned [3]) :=
  truncate_over_length [1, 2] [3] 5 (by decide) (by decide)

end Wirefilter
